import Mathlib

/- Verification development for the ZOOpt repository: a shallow embedding of
zoopt/algos/opt_algorithms/racos/sracos.py (classes SRacos and SRacosTune)
together with proofs about the replacement strategies, the binary search over
the positive archive, the non-distinct counter of the sequential driver loop,
and the asynchronous suggest/complete protocol of the Tune driver. Float
values are modelled as rationals; the randomness of np.random is supplied
through explicit oracle parameters; methods that raise exceptions on
degenerate input (empty archives) return Option. -/

/-- A solution: a coordinate vector together with its objective value, as used
by sracos.py (zoopt.solution.Solution restricted to the fields get_x and
get_value / set_value the module reads and writes). -/
structure Sol where
  x : List ℚ
  value : ℚ
deriving DecidableEq, Inhabited

/-- The iset_type argument of SRacos.replace and SRacos.strategy_wr; the source
passes the strings "pos" and "neg". -/
inductive IsetType
  | pos
  | neg
deriving DecidableEq

/-- The replace strategy of SRacos.opt and SRacos.replace; the source passes
the strings "WR", "RR" and "LM". -/
inductive Strategy
  | WR
  | RR
  | LM
deriving DecidableEq

/-- SRacos.binary_search (sracos.py lines 129-150): find an insertion position
for x in the value-sorted list iset between positions b and e. Out-of-range
list accesses, which raise IndexError in Python, are modelled with default
values; the source recursion never terminates when e < b, where this total
embedding returns b (no theorem below relies on that region). -/
def binary_search (iset : List Sol) (x : Sol) (b e : Nat) : Nat :=
  if x.value ≤ (iset.getD b default).value then b
  else if (iset.getD e default).value ≤ x.value then e + 1
  else if e = b + 1 then e
  else if _h : b + 1 < e then
    if x.value ≤ (iset.getD (b + (e - b) / 2) default).value then
      binary_search iset x b (b + (e - b) / 2)
    else
      binary_search iset x (b + (e - b) / 2) e
  else b
termination_by e - b
decreasing_by
  · omega
  · omega

/-- Python list.insert(i, v): insert v before position i, appending when i is
at least the length of the list. -/
def pyInsert : List Sol → Nat → Sol → List Sol
  | [], _, v => [v]
  | y :: ys, 0, v => v :: y :: ys
  | y :: ys, n + 1, v => y :: pyInsert ys n v

/-- The scan of find_maximum: cur / ci are the running maximum and its index,
i the absolute index of the head of the remaining list. -/
def fmAux : List Sol → Sol → Nat → Nat → Sol × Nat
  | [], cur, ci, _ => (cur, ci)
  | e :: es, cur, ci, i =>
    if cur.value < e.value then fmAux es e i (i + 1) else fmAux es cur ci (i + 1)

/-- Modelled from the spec: Solution.find_maximum (zoopt/solution.py, not under
src) — "find the element with the maximum value" (spec section 4.4, WR on the
negative archive); returns the element and its index, ties resolved to the
first occurrence, none on an empty list. -/
def find_maximum : List Sol → Option (Sol × Nat)
  | [] => none
  | y :: ys => some (fmAux ys y 0 1)

/-- The scan of the Python builtin min with a key function: returns the first
element of smallest value. -/
def mnAux : List Sol → Sol → Sol
  | [], cur => cur
  | e :: es, cur => if e.value < cur.value then mnAux es e else mnAux es cur

/-- Python min(iset, key=lambda x: x.get_value()) as called by SRacos.replace
(sracos.py line 126); none models the ValueError on an empty list. -/
def minByValue : List Sol → Option Sol
  | [] => none
  | y :: ys => some (mnAux ys y)

/-- Squared Euclidean distance between coordinate vectors. SRacos.distance
(sracos.py lines 208-219) returns np.sqrt of this sum; the square root is
strictly monotone on nonnegatives, so each comparison the source makes
between distances — including against the initial value 0 — coincides with
the comparison of the squares, and the square root is omitted to keep the
embedding inside ℚ. The source indexes both vectors by range(len(x)) and so
assumes equal lengths, modelled here with zip. -/
def distSq (x y : List ℚ) : ℚ :=
  ((x.zip y).map (fun p => (p.1 - p.2) ^ 2)).sum

/-- The scan loop of SRacos.strategy_lm (sracos.py lines 197-203): elems is
the remaining archive, i the absolute index of its head, fd and fi the
farthest distance and farthest index so far (initially 0 and 0). -/
def lmScan (ref : Sol) : List Sol → Nat → ℚ → Nat → Nat
  | [], _, _, fi => fi
  | e :: es, i, fd, fi =>
    if fd < distSq e.x ref.x then lmScan ref es (i + 1) (distSq e.x ref.x) i
    else lmScan ref es (i + 1) fd fi

/-- SRacos.strategy_wr (sracos.py lines 152-171): returns the replaced element
together with the updated archive; none models the exception the source
raises on an empty archive. For the positive archive the new solution is
inserted at the binary_search position and the last element popped; for the
negative archive the maximum element is overwritten exactly when its value
strictly exceeds the value of x. -/
def strategy_wr (iset : List Sol) (x : Sol) (iset_type : IsetType) :
    Option (Sol × List Sol) :=
  if iset_type = .pos then
    if iset.isEmpty then none
    else
      let l2 := pyInsert iset (binary_search iset x 0 (iset.length - 1)) x
      some (l2.getLastD default, l2.dropLast)
  else
    match find_maximum iset with
    | none => none
    | some (worst_ele, worst_index) =>
      if x.value < worst_ele.value then some (worst_ele, iset.set worst_index x)
      else some (x, iset)

/-- SRacos.strategy_rr (sracos.py lines 173-185); the draw of
np.random.randint(0, len(iset)) is modelled by the explicit oracle parameter
rnd reduced modulo the length; none models the error on an empty archive. -/
def strategy_rr (iset : List Sol) (x : Sol) (rnd : Nat) : Option (Sol × List Sol) :=
  if iset.isEmpty then none
  else
    some (iset.getD (rnd % iset.length) default, iset.set (rnd % iset.length) x)

/-- SRacos.strategy_lm (sracos.py lines 188-206): replace the farthest element
from best_sol, ties resolved to the first occurrence by the strict comparison
of the scan; none models the IndexError on an empty archive. -/
def strategy_lm (iset : List Sol) (best_sol x : Sol) : Option (Sol × List Sol) :=
  if iset.isEmpty then none
  else
    some (iset.getD (lmScan best_sol iset 0 0 0) default,
      iset.set (lmScan best_sol iset 0 0 0) x)

/-- SRacos.replace (sracos.py lines 111-127): dispatch on the strategy. For LM
the reference point is min(iset, key=value) — the first minimum-value element
of the very archive being updated. rnd is the randomness oracle for RR. -/
def replace (iset : List Sol) (x : Sol) (iset_type : IsetType)
    (strategy : Strategy) (rnd : Nat) : Option (Sol × List Sol) :=
  match strategy with
  | .WR => strategy_wr iset x iset_type
  | .RR => strategy_rr iset x rnd
  | .LM =>
    match minByValue iset with
    | none => none
    | some best_sol => strategy_lm iset best_sol x

/-- One replacement step of SRacos.opt (sracos.py lines 81-83): the evaluated
solution is inserted into the positive archive — replace is called there with
its default strategy WR — the evicted element goes to the negative archive
under the configured strategy, and the best solution is re-read as index 0 of
the positive archive. Returns (positive archive, negative archive, best). -/
def opt_update (pos neg : List Sol) (solution : Sol) (strategy : Strategy)
    (rnd : Nat) : Option (List Sol × List Sol × Sol) :=
  match replace pos solution .pos .WR rnd with
  | none => none
  | some (bad_ele, pos2) =>
    match replace neg bad_ele .neg strategy rnd with
    | none => none
    | some (_, neg2) =>
      match pos2.head? with
      | none => none
      | some b => some (pos2, neg2, b)

/-- One sampling event of the SRacos.opt loop. The source draws a candidate via
distinct_sample / distinct_sample_classifier (racos_common.py, not under src)
and evaluates it with the external objective, so the outcome of each draw is
supplied as trace data: panicStop models a draw that returned None, and for a
distinct draw sol already carries the value assigned by objective.eval while
rnd feeds strategy_rr when RR is configured. -/
inductive OptEvent
  | panicStop
  | notDistinct
  | distinct (sol : Sol) (rnd : Nat)
deriving DecidableEq

/-- Why the SRacos.opt loop returned, distinguishable in the source by its log
messages and exit points. -/
inductive StopReason
  | solutionNone
  | notDistinctOverflow
  | terminalReached
  | criterionStop
  | budgetDone
deriving DecidableEq

/-- The terminal_value check of SRacos.opt (sracos.py lines 102-105). -/
def terminalHit (terminal : Option ℚ) (best : Sol) : Bool :=
  match terminal with
  | none => false
  | some tv => decide (best.value ≤ tv)

/-- The while-loop of SRacos.opt (sracos.py lines 52-109): i is the iteration
counter bounded by iterNum = budget - train_size, cnd the
current_not_distinct_times counter with max_distinct_repeat_times = 100,
terminal the optional terminal_value and crit the pluggable stopping
criterion, modelled as a predicate on the two archives. The wall-clock logic
of lines 84-100 is outside the embedding (real time); this corresponds to a
run without a time budget. A non-distinct draw increments cnd and continues
without advancing i; a distinct draw performs one opt_update and advances i.
The budget test at the loop head does not depend on the drawn event, so it is
replicated across the event patterns here. An exhausted trace yields none. -/
def opt_loop (iterNum : Nat) (strategy : Strategy) (terminal : Option ℚ)
    (crit : List Sol → List Sol → Bool) :
    List OptEvent → Nat → Nat → List Sol → List Sol →
    Option (StopReason × List Sol × List Sol)
  | [], i, _, pos, neg =>
    if iterNum ≤ i then some (.budgetDone, pos, neg) else none
  | .panicStop :: _, i, _, pos, neg =>
    if iterNum ≤ i then some (.budgetDone, pos, neg)
    else some (.solutionNone, pos, neg)
  | .notDistinct :: rest, i, cnd, pos, neg =>
    if iterNum ≤ i then some (.budgetDone, pos, neg)
    else if 100 ≤ cnd + 1 then some (.notDistinctOverflow, pos, neg)
    else opt_loop iterNum strategy terminal crit rest i (cnd + 1) pos neg
  | .distinct sol rnd :: rest, i, cnd, pos, neg =>
    if iterNum ≤ i then some (.budgetDone, pos, neg)
    else
      match opt_update pos neg sol strategy rnd with
      | none => none
      | some (pos2, neg2, best) =>
        if terminalHit terminal best then some (.terminalReached, pos2, neg2)
        else if crit pos2 neg2 then some (.criterionStop, pos2, neg2)
        else opt_loop iterNum strategy terminal crit rest (i + 1) cnd pos2 neg2

/-- The driver state of SRacosTune (sracos.py lines 227-249) together with the
RacosCommon fields its methods touch: _data, _positive_data, _negative_data
and _best_solution. trainSize and serverNum hold the parameter values
get_train_size() and get_server_num(); liveNum is an integer because the
source decrements it without a lower bound. -/
structure TuneState where
  trainSize : Nat
  serverNum : Nat
  initNum : Nat
  completeNum : Nat
  semaphore : Nat
  liveNum : Int
  data : List Sol
  positive : List Sol
  negative : List Sol
  best : Option Sol
deriving DecidableEq

/-- The value SRacosTune.suggest hands back: a Solution, the string FINISHED,
or None (a bare return or the fall-through). -/
inductive SuggestRes
  | sol (s : Sol)
  | finished
  | nothing
deriving DecidableEq

/-- A fresh SRacosTune driver (sracos.py lines 227-249) for the given
train_size and parallel_num. -/
def tuneInit (trainSize serverNum : Nat) : TuneState :=
  { trainSize := trainSize
    serverNum := serverNum
    initNum := 0
    completeNum := 0
    semaphore := 1
    liveNum := 0
    data := []
    positive := []
    negative := []
    best := none }

/-- SRacosTune.suggest (sracos.py lines 251-277). The draws performed by
tune_init_attribute (racos_common.py, not under src) and by sample_solution
(lines 308-325, delegating to the samplers of racos_common.py) touch none of
the driver fields modelled here, so their outcome (solution, distinct_flag)
is supplied as the oracle argument o. -/
def suggest (st : TuneState) (o : Sol × Bool) : TuneState × SuggestRes :=
  if st.semaphore = 0 then (st, .nothing)
  else if st.initNum < st.trainSize then
    if o.2 = false then (st, .finished)
    else ({ st with liveNum := st.liveNum + 1, initNum := st.initNum + 1 }, .sol o.1)
  else if st.initNum = st.trainSize then
    ({ st with semaphore := 0, initNum := st.initNum + 1 }, .nothing)
  else if st.liveNum < (st.serverNum : Int) then
    if o.2 = false then (st, .finished)
    else ({ st with liveNum := st.liveNum + 1, initNum := st.initNum + 1 }, .sol o.1)
  else ({ st with initNum := st.initNum + 1 }, .nothing)

/-- Ascending insertion by value, for the spec-modelled selection. -/
def insertSorted (s : Sol) : List Sol → List Sol
  | [] => [s]
  | y :: ys => if s.value ≤ y.value then s :: y :: ys else y :: insertSorted s ys

/-- Ascending sort by value, for the spec-modelled selection. -/
def sortByValue : List Sol → List Sol
  | [] => []
  | y :: ys => insertSorted y (sortByValue ys)

/-- Modelled from the spec: RacosCommon.selection (racos_common.py, not under
src) — the staging set is sorted ascending by value and split into the
positive and negative archives (spec sections 4.5 and 4.6). -/
def selection (st : TuneState) : TuneState :=
  { st with
    positive := List.take st.trainSize (sortByValue st.data)
    negative := List.drop st.trainSize (sortByValue st.data) }

/-- SRacosTune.update_classifier (sracos.py lines 327-341), always invoked by
complete with its default strategy WR. The terminal_value and
stopping_criterion checks of lines 333-339 return the same best solution as
the final fall-through (they only log), so the result is the best solution —
index 0 of the positive archive — whenever the replacements succeed; none
models the exception raised on an empty positive archive. -/
def update_classifier (st : TuneState) (solution : Sol) (strategy : Strategy)
    (rnd : Nat) : Option (TuneState × Sol) :=
  match replace st.positive solution .pos .WR rnd with
  | none => none
  | some (bad_ele, pos2) =>
    match replace st.negative bad_ele .neg strategy rnd with
    | none => none
    | some (_, neg2) =>
      match pos2.head? with
      | none => none
      | some b =>
        some ({ st with positive := pos2, negative := neg2, best := some b }, b)

/-- A float result handed to SRacosTune.complete: a finite value, modelled as
a rational, or one of the values that np.isnan or np.isinf detects. -/
inductive FloatVal
  | fin (q : ℚ)
  | nan
  | inf
deriving DecidableEq

/-- SRacosTune.complete (sracos.py lines 279-306). The outer none models the
exception raised when update_classifier is reached with an empty positive
archive; the inner Option Sol is the Python return value — the branch for
complete_num < train_size falls off the function and returns None. rnd is
the randomness oracle threaded to the replacement strategies. -/
def complete (st : TuneState) (solution : Sol) (result : FloatVal) (rnd : Nat) :
    Option (TuneState × Option Sol) :=
  let st1 := { st with completeNum := st.completeNum + 1, liveNum := st.liveNum - 1 }
  match result with
  | .fin q =>
    let sol2 := { solution with value := q }
    if st1.completeNum < st1.trainSize then
      some (selection { st1 with data := st1.data ++ [sol2] }, none)
    else if st1.completeNum = st1.trainSize then
      match update_classifier st1 sol2 .WR rnd with
      | none => none
      | some (st2, b) => some ({ st2 with semaphore := 1 }, some b)
    else
      match update_classifier st1 sol2 .WR rnd with
      | none => none
      | some (st2, b) => some (st2, some b)
  | _ =>
    if st1.completeNum = st1.trainSize then some ({ st1 with semaphore := 1 }, st1.best)
    else some (st1, st1.best)

/-- Follows the words of the spec for claim C4: the smallest index whose
element has value at least x.value, or the length of the list when no such
index exists (List.findIdx returns the length in that case). -/
def firstInsertIdx (iset : List Sol) (x : Sol) : Nat :=
  iset.findIdx (fun s => decide (x.value ≤ s.value))

/-- Sorted ascending by value, the invariant of the positive archive. -/
def sortedByValue (l : List Sol) : Prop :=
  l.Pairwise (fun a b => a.value ≤ b.value)

instance (l : List Sol) : Decidable (sortedByValue l) := by
  unfold sortedByValue
  infer_instance

/-- Total count of notDistinct events in a trace. -/
def ndCount (trace : List OptEvent) : Nat :=
  trace.countP (fun e => e = .notDistinct)

/-- The scan behind maxConsecND: cur is the current run of notDistinct events,
mx the longest run seen so far. -/
def ndRunsAux : List OptEvent → Nat → Nat → Nat
  | [], cur, mx => max mx cur
  | .notDistinct :: rest, cur, mx => ndRunsAux rest (cur + 1) mx
  | _ :: rest, cur, mx => ndRunsAux rest 0 (max mx cur)

/-- Length of the longest run of consecutive notDistinct events in a trace. -/
def maxConsecND (trace : List OptEvent) : Nat :=
  ndRunsAux trace 0 0

/-- Bridge between the total getD used in the embedding and in-range list
indexing. -/
lemma getD_eq_getElem (l : List Sol) (n : Nat) (h : n < l.length) :
    l.getD n default = l[n] := by
  simp [List.getD, List.getElem?_eq_getElem h]

/-- Monotonicity of values along a sorted archive. -/
lemma sorted_val_mono {l : List Sol} (hs : sortedByValue l) {i j : Nat}
    (hi : i < l.length) (hij : i ≤ j) (hj : j < l.length) :
    l[i].value ≤ l[j].value := by
  rcases Nat.eq_or_lt_of_le hij with h | h
  · subst h
    exact le_refl _
  · exact List.pairwise_iff_getElem.mp hs i j hi hj h

/-- Full specification of binary_search on a sorted archive: the result lies
between b and e + 1, every element strictly before it has value at most
x.value, and every element from it up to e has value at least x.value. -/
lemma binary_search_spec (d : Nat) (iset : List Sol) (x : Sol) :
    ∀ b e : Nat, e - b ≤ d → sortedByValue iset → b ≤ e → e < iset.length →
    b ≤ binary_search iset x b e ∧ binary_search iset x b e ≤ e + 1 ∧
    (∀ j, (hj : j < iset.length) → b ≤ j → j < binary_search iset x b e →
      iset[j].value ≤ x.value) ∧
    (∀ j, (hj : j < iset.length) → binary_search iset x b e ≤ j → j ≤ e →
      x.value ≤ iset[j].value) := by
  induction d with
  | zero =>
    intro b e hd hs hbe he
    have heb : e = b := by omega
    subst heb
    have hgb : iset.getD e default = iset[e] := getD_eq_getElem iset e he
    by_cases h1 : x.value ≤ iset[e].value
    · have hr : binary_search iset x e e = e := by
        rw [binary_search]
        simp only [hgb]
        rw [if_pos h1]
      rw [hr]
      refine ⟨by omega, by omega, ?_, ?_⟩
      · intro j hj hbj hjr
        omega
      · intro j hj hrj hje
        have : j = e := by omega
        subst this
        exact h1
    · have h2 : iset[e].value ≤ x.value := le_of_lt (not_le.mp h1)
      have hr : binary_search iset x e e = e + 1 := by
        rw [binary_search]
        simp only [hgb]
        rw [if_neg h1, if_pos h2]
      rw [hr]
      refine ⟨by omega, by omega, ?_, ?_⟩
      · intro j hj hbj hjr
        have : j = e := by omega
        subst this
        exact h2
      · intro j hj hrj hje
        omega
  | succ d ih =>
    intro b e hd hs hbe he
    have hb : b < iset.length := by omega
    have hgb : iset.getD b default = iset[b] := getD_eq_getElem iset b hb
    have hge : iset.getD e default = iset[e] := getD_eq_getElem iset e he
    by_cases h1 : x.value ≤ iset[b].value
    · have hr : binary_search iset x b e = b := by
        rw [binary_search]
        simp only [hgb, hge]
        rw [if_pos h1]
      rw [hr]
      refine ⟨by omega, by omega, ?_, ?_⟩
      · intro j hj hbj hjr
        omega
      · intro j hj hrj hje
        exact le_trans h1 (sorted_val_mono hs hb hrj hj)
    · have hb_lt : iset[b].value < x.value := not_le.mp h1
      by_cases h2 : iset[e].value ≤ x.value
      · have hr : binary_search iset x b e = e + 1 := by
          rw [binary_search]
          simp only [hgb, hge]
          rw [if_neg h1, if_pos h2]
        rw [hr]
        refine ⟨by omega, by omega, ?_, ?_⟩
        · intro j hj hbj hjr
          exact le_trans (sorted_val_mono hs hj (by omega) he) h2
        · intro j hj hrj hje
          omega
      · have he_gt : x.value < iset[e].value := not_le.mp h2
        by_cases h3 : e = b + 1
        · have hr : binary_search iset x b e = e := by
            rw [binary_search]
            simp only [hgb, hge]
            rw [if_neg h1, if_neg h2, if_pos h3]
          rw [hr]
          refine ⟨by omega, by omega, ?_, ?_⟩
          · intro j hj hbj hjr
            have : j = b := by omega
            subst this
            exact le_of_lt hb_lt
          · intro j hj hrj hje
            have : j = e := by omega
            subst this
            exact le_of_lt he_gt
        · have h4 : b + 1 < e := by
            rcases Nat.lt_or_ge (b + 1) e with h | h
            · exact h
            · exfalso
              have heb : e = b := by omega
              subst heb
              exact h2 (le_of_lt hb_lt)
          have hmide : b + (e - b) / 2 < e := by omega
          have hmidb : b < b + (e - b) / 2 := by omega
          have hmidlen : b + (e - b) / 2 < iset.length := by omega
          have hgm : iset.getD (b + (e - b) / 2) default = iset[b + (e - b) / 2] :=
            getD_eq_getElem iset _ hmidlen
          by_cases h5 : x.value ≤ iset[b + (e - b) / 2].value
          · have hr : binary_search iset x b e = binary_search iset x b (b + (e - b) / 2) := by
              rw [binary_search]
              simp only [hgb, hge, hgm]
              rw [if_neg h1, if_neg h2, if_neg h3, dif_pos h4, if_pos h5]
            obtain ⟨ih1, ih2, ih3, ih4⟩ :=
              ih b (b + (e - b) / 2) (by omega) hs (le_of_lt hmidb) hmidlen
            rw [hr]
            refine ⟨ih1, by omega, ih3, ?_⟩
            intro j hj hrj hje
            by_cases hjm : j ≤ b + (e - b) / 2
            · exact ih4 j hj hrj hjm
            · exact le_trans h5 (sorted_val_mono hs hmidlen (by omega) hj)
          · have hr : binary_search iset x b e = binary_search iset x (b + (e - b) / 2) e := by
              rw [binary_search]
              simp only [hgb, hge, hgm]
              rw [if_neg h1, if_neg h2, if_neg h3, dif_pos h4, if_neg h5]
            obtain ⟨ih1, ih2, ih3, ih4⟩ :=
              ih (b + (e - b) / 2) e (by omega) hs (le_of_lt hmide) he
            rw [hr]
            refine ⟨by omega, ih2, ?_, ih4⟩
            intro j hj hbj hjr
            by_cases hjm : j < b + (e - b) / 2
            · exact le_trans (sorted_val_mono hs hj (le_of_lt hjm) hmidlen)
                (le_of_lt (not_le.mp h5))
            · exact ih3 j hj (by omega) hjr

/-- Insertion position returned at the top-level call of binary_search
(begin = 0, end = len - 1) is a valid sorted-insertion position. -/
lemma binary_search_insert_spec (iset : List Sol) (x : Sol)
    (hs : sortedByValue iset) (hne : iset ≠ []) :
    binary_search iset x 0 (iset.length - 1) ≤ iset.length ∧
    (∀ j, (hj : j < iset.length) → j < binary_search iset x 0 (iset.length - 1) →
      iset[j].value ≤ x.value) ∧
    (∀ j, (hj : j < iset.length) → binary_search iset x 0 (iset.length - 1) ≤ j →
      x.value ≤ iset[j].value) := by
  have hlen : 0 < iset.length := List.length_pos.mpr hne
  obtain ⟨h1, h2, h3, h4⟩ := binary_search_spec iset.length iset x 0
    (iset.length - 1) (by omega) hs (by omega) (by omega)
  refine ⟨by omega, ?_, ?_⟩
  · intro j hj hjr
    exact h3 j hj (by omega) hjr
  · intro j hj hrj
    exact h4 j hj hrj (by omega)

/-- pyInsert always grows the list by one element. -/
lemma pyInsert_length (l : List Sol) (n : Nat) (v : Sol) :
    (pyInsert l n v).length = l.length + 1 := by
  induction l generalizing n with
  | nil => simp [pyInsert]
  | cons y ys ih =>
    cases n with
    | zero => simp [pyInsert]
    | succ m => simp [pyInsert, ih]

/-- Membership in a pyInsert result. -/
lemma mem_pyInsert {l : List Sol} {n : Nat} {v w : Sol} :
    w ∈ pyInsert l n v ↔ w = v ∨ w ∈ l := by
  induction l generalizing n with
  | nil => simp [pyInsert]
  | cons y ys ih =>
    cases n with
    | zero =>
      simp [pyInsert]
    | succ m =>
      simp only [pyInsert, List.mem_cons, ih]
      tauto

/-- Inserting past the end of the list appends, as Python list.insert does. -/
lemma pyInsert_append (l : List Sol) (n : Nat) (v : Sol) (h : l.length ≤ n) :
    pyInsert l n v = l ++ [v] := by
  induction l generalizing n with
  | nil => cases n <;> simp [pyInsert]
  | cons y ys ih =>
    cases n with
    | zero => simp at h
    | succ m =>
      simp only [pyInsert, List.cons_append, List.cons.injEq, true_and]
      exact ih m (by simpa using h)

/-- pyInsert at a valid sorted-insertion position preserves sortedness. -/
lemma pyInsert_sorted {l : List Sol} {v : Sol} {n : Nat} (hs : sortedByValue l)
    (hlo : ∀ j, (hj : j < l.length) → j < n → l[j].value ≤ v.value)
    (hhi : ∀ j, (hj : j < l.length) → n ≤ j → v.value ≤ l[j].value) :
    sortedByValue (pyInsert l n v) := by
  induction l generalizing n with
  | nil =>
    simp [pyInsert, sortedByValue]
  | cons y ys ih =>
    have hys : sortedByValue ys := (List.pairwise_cons.mp hs).2
    have hy_le : ∀ w ∈ ys, y.value ≤ w.value := (List.pairwise_cons.mp hs).1
    cases n with
    | zero =>
      unfold sortedByValue
      rw [show pyInsert (y :: ys) 0 v = v :: y :: ys from rfl, List.pairwise_cons]
      constructor
      · intro w hw
        obtain ⟨i, hi, rfl⟩ := List.mem_iff_getElem.mp hw
        exact hhi i hi (Nat.zero_le i)
      · exact hs
    | succ m =>
      unfold sortedByValue
      rw [show pyInsert (y :: ys) (m + 1) v = y :: pyInsert ys m v from rfl,
        List.pairwise_cons]
      constructor
      · intro w hw
        rcases mem_pyInsert.mp hw with rfl | hw2
        · exact hlo 0 (by simp) (Nat.succ_pos m)
        · exact hy_le w hw2
      · apply ih hys
        · intro j hj hjm
          have := hlo (j + 1) (by simpa using Nat.succ_lt_succ hj) (Nat.succ_lt_succ hjm)
          simpa using this
        · intro j hj hmj
          have := hhi (j + 1) (by simpa using Nat.succ_lt_succ hj) (Nat.succ_le_succ hmj)
          simpa using this

/-- The head of a sorted nonempty archive has the least value. -/
lemma sorted_head_min {l : List Sol} {b : Sol} (hs : sortedByValue l)
    (hh : l.head? = some b) : ∀ w ∈ l, b.value ≤ w.value := by
  cases l with
  | nil => simp at hh
  | cons y ys =>
    simp only [List.head?_cons, Option.some.injEq] at hh
    subst hh
    intro w hw
    rcases List.mem_cons.mp hw with rfl | hw2
    · exact le_refl _
    · exact (List.pairwise_cons.mp hs).1 w hw2

/-- A nonempty archive always has a maximum element. -/
lemma find_maximum_some (iset : List Sol) (hne : iset ≠ []) :
    ∃ w wi, find_maximum iset = some (w, wi) := by
  cases iset with
  | nil => exact absurd rfl hne
  | cons y ys => exact ⟨(fmAux ys y 0 1).1, (fmAux ys y 0 1).2, rfl⟩

/-- strategy_wr on a nonempty negative archive always succeeds. -/
lemma strategy_wr_neg_some (iset : List Sol) (x : Sol) (hne : iset ≠ []) :
    ∃ ev l2, strategy_wr iset x .neg = some (ev, l2) := by
  obtain ⟨w, wi, hfm⟩ := find_maximum_some iset hne
  by_cases hlt : x.value < w.value
  · exact ⟨w, iset.set wi x, by simp [strategy_wr, hfm, hlt]⟩
  · exact ⟨x, iset, by simp [strategy_wr, hfm, hlt]⟩

/-- Effect of strategy_wr on the positive archive: sorted insertion at the
binary_search index followed by a pop of the last element preserves the
length and the ordering, and introduces no element other than x. -/
lemma strategy_wr_pos_spec (iset : List Sol) (x : Sol)
    (hs : sortedByValue iset) (hne : iset ≠ []) :
    ∃ ev l2, strategy_wr iset x .pos = some (ev, l2) ∧
      l2.length = iset.length ∧ sortedByValue l2 ∧
      ∀ w ∈ l2, w = x ∨ w ∈ iset := by
  obtain ⟨hle, hlo, hhi⟩ := binary_search_insert_spec iset x hs hne
  have hinslen : (pyInsert iset (binary_search iset x 0 (iset.length - 1)) x).length =
      iset.length + 1 := pyInsert_length iset _ x
  have hsorted : sortedByValue (pyInsert iset (binary_search iset x 0 (iset.length - 1)) x) :=
    pyInsert_sorted hs hlo hhi
  have hempty : iset.isEmpty = false := by
    cases iset with
    | nil => exact absurd rfl hne
    | cons y ys => rfl
  refine ⟨(pyInsert iset (binary_search iset x 0 (iset.length - 1)) x).getLastD default,
    (pyInsert iset (binary_search iset x 0 (iset.length - 1)) x).dropLast, ?_, ?_, ?_, ?_⟩
  · simp [strategy_wr, hempty]
  · rw [List.length_dropLast, hinslen]
    omega
  · exact List.Pairwise.sublist (List.dropLast_sublist _) hsorted
  · intro w hw
    exact mem_pyInsert.mp ((List.dropLast_sublist _).subset hw)

/-- Claim C3 (confirmed): for a sorted positive archive of fixed size, one
replacement step of the SRacos.opt loop — WR insertion of the evaluated
solution into the positive archive, negative-archive update with the evicted
element, then re-reading the best as index 0 — keeps the positive archive at
exactly its previous length (train_size) and sorted ascending by value, and
the produced best solution is the element at index 0 of the positive archive,
so its value equals the value at index 0 and bounds every archive value from
below. -/
theorem C3_positive_invariant (pos neg : List Sol) (sol : Sol) (rnd : Nat)
    (hs : sortedByValue pos) (hpos : pos ≠ []) (hneg : neg ≠ []) :
    ∃ pos2 neg2 b, opt_update pos neg sol .WR rnd = some (pos2, neg2, b) ∧
      pos2.length = pos.length ∧ sortedByValue pos2 ∧
      pos2.head? = some b ∧ ∀ w ∈ pos2, b.value ≤ w.value := by
  obtain ⟨ev, pos2, hwr, hlen, hsort2, hmem⟩ := strategy_wr_pos_spec pos sol hs hpos
  have h1 : replace pos sol .pos .WR rnd = some (ev, pos2) := by
    simpa [replace] using hwr
  obtain ⟨ev2, neg2, hneg2⟩ := strategy_wr_neg_some neg ev hneg
  have h2 : replace neg ev .neg .WR rnd = some (ev2, neg2) := by
    simpa [replace] using hneg2
  cases pos2 with
  | nil =>
    exfalso
    have : pos.length = 0 := by simpa using hlen.symm
    exact hpos (List.length_eq_zero.mp this)
  | cons p ps =>
    refine ⟨p :: ps, neg2, p, ?_, hlen, hsort2, rfl, sorted_head_min hsort2 rfl⟩
    simp [opt_update, h1, h2]

/-- Claim C3 witness: a concrete sorted archive of size two. -/
theorem C3_positive_invariant_witness :
    (sortedByValue [⟨[0], 0⟩, ⟨[1], 3⟩] ∧ ([⟨[0], 0⟩, ⟨[1], 3⟩] : List Sol) ≠ [] ∧
      ([⟨[2], 5⟩] : List Sol) ≠ []) ∧
    (∃ pos2 neg2 b,
      opt_update [⟨[0], 0⟩, ⟨[1], 3⟩] [⟨[2], 5⟩] ⟨[3], 1⟩ .WR 0 = some (pos2, neg2, b) ∧
      pos2.length = ([⟨[0], 0⟩, ⟨[1], 3⟩] : List Sol).length ∧ sortedByValue pos2 ∧
      pos2.head? = some b ∧ ∀ w ∈ pos2, b.value ≤ w.value) :=
  ⟨⟨by decide, by decide, by decide⟩,
    C3_positive_invariant [⟨[0], 0⟩, ⟨[1], 3⟩] [⟨[2], 5⟩] ⟨[3], 1⟩ 0
      (by decide) (by decide) (by decide)⟩

/-- Claim C9 (confirmed): for the WR strategy on a sorted nonempty positive
archive, inserting a solution whose value strictly exceeds the current worst
(last) value leaves the archive literally unchanged — in particular set-equal
to its contents before the call — and returns the inserted solution itself as
the evicted element. -/
theorem C9_worse_insert_identity (iset : List Sol) (x : Sol)
    (hs : sortedByValue iset) (hne : iset ≠ [])
    (hworst : (iset.getLast hne).value < x.value) :
    strategy_wr iset x .pos = some (x, iset) := by
  have hlen : 0 < iset.length := List.length_pos.mpr hne
  have hlast : iset.getLast hne = iset[iset.length - 1] := List.getLast_eq_getElem iset hne
  have hgb : iset.getD 0 default = iset[0] := getD_eq_getElem iset 0 hlen
  have hge : iset.getD (iset.length - 1) default = iset[iset.length - 1] :=
    getD_eq_getElem iset _ (by omega)
  have h0last : iset[0].value ≤ iset[iset.length - 1].value :=
    sorted_val_mono hs hlen (by omega) (by omega)
  have hworst2 : iset[iset.length - 1].value < x.value := by
    rw [hlast] at hworst
    exact hworst
  have hbs : binary_search iset x 0 (iset.length - 1) = iset.length := by
    rw [binary_search]
    simp only [hgb, hge]
    rw [if_neg (by exact not_le.mpr (lt_of_le_of_lt h0last hworst2)),
      if_pos (le_of_lt hworst2)]
    omega
  have hempty : iset.isEmpty = false := by
    cases iset with
    | nil => exact absurd rfl hne
    | cons y ys => rfl
  have happend : pyInsert iset (binary_search iset x 0 (iset.length - 1)) x =
      iset ++ [x] := by
    rw [hbs]
    exact pyInsert_append iset iset.length x (le_refl _)
  simp [strategy_wr, hempty, happend]

/-- Claim C9 witness: a concrete strictly-worse insertion. -/
theorem C9_worse_insert_identity_witness :
    (sortedByValue [⟨[0], 1⟩, ⟨[1], 4⟩] ∧
      (([⟨[0], 1⟩, ⟨[1], 4⟩] : List Sol).getLast (by decide)).value < (5 : ℚ)) ∧
    strategy_wr [⟨[0], 1⟩, ⟨[1], 4⟩] ⟨[2], 5⟩ .pos =
      some (⟨[2], 5⟩, [⟨[0], 1⟩, ⟨[1], 4⟩]) :=
  ⟨⟨by decide, by decide⟩,
    C9_worse_insert_identity [⟨[0], 1⟩, ⟨[1], 4⟩] ⟨[2], 5⟩ (by decide) (by decide)
      (by decide)⟩

/-- Claim C4 counterexample: with a sorted archive of values 1 and 2 and a new
solution of value 2, binary_search over the whole range returns 2 — after the
element of equal value — whereas the first (lowest) index with value at least
2, which the claim asserts, is index 1. -/
theorem C4_counterexample :
    binary_search [⟨[0], 1⟩, ⟨[0], 2⟩] ⟨[1], 2⟩ 0 1 = 2 ∧
    firstInsertIdx [⟨[0], 1⟩, ⟨[0], 2⟩] ⟨[1], 2⟩ = 1 := by
  constructor
  · rw [binary_search]
    norm_num [List.getD]
  · decide

/-- Claim C4 (corrected): on a sorted nonempty archive, binary_search over the
whole range returns a valid sorted-insertion index — it is at most the
length, every element strictly before it has value at most x.value, and every
element at or after it has value at least x.value — but it is not always the
first (lowest) such index: a solution whose value equals existing archive
values may be placed after them, as the counterexample shows. -/
theorem C4_insertion_position (iset : List Sol) (x : Sol)
    (hs : sortedByValue iset) (hne : iset ≠ []) :
    binary_search iset x 0 (iset.length - 1) ≤ iset.length ∧
    (∀ j, (hj : j < iset.length) → j < binary_search iset x 0 (iset.length - 1) →
      iset[j].value ≤ x.value) ∧
    (∀ j, (hj : j < iset.length) → binary_search iset x 0 (iset.length - 1) ≤ j →
      x.value ≤ iset[j].value) :=
  binary_search_insert_spec iset x hs hne

/-- Claim C4 witness: the insertion-position properties at a concrete sorted
archive. -/
theorem C4_insertion_position_witness :
    (sortedByValue [⟨[0], 1⟩, ⟨[0], 3⟩] ∧ ([⟨[0], 1⟩, ⟨[0], 3⟩] : List Sol) ≠ []) ∧
    (binary_search [⟨[0], 1⟩, ⟨[0], 3⟩] ⟨[1], 2⟩ 0
        (([⟨[0], 1⟩, ⟨[0], 3⟩] : List Sol).length - 1) ≤
        ([⟨[0], 1⟩, ⟨[0], 3⟩] : List Sol).length ∧
      (∀ j, (hj : j < ([⟨[0], 1⟩, ⟨[0], 3⟩] : List Sol).length) →
        j < binary_search [⟨[0], 1⟩, ⟨[0], 3⟩] ⟨[1], 2⟩ 0
          (([⟨[0], 1⟩, ⟨[0], 3⟩] : List Sol).length - 1) →
        ([⟨[0], 1⟩, ⟨[0], 3⟩] : List Sol)[j].value ≤ (⟨[1], 2⟩ : Sol).value) ∧
      (∀ j, (hj : j < ([⟨[0], 1⟩, ⟨[0], 3⟩] : List Sol).length) →
        binary_search [⟨[0], 1⟩, ⟨[0], 3⟩] ⟨[1], 2⟩ 0
          (([⟨[0], 1⟩, ⟨[0], 3⟩] : List Sol).length - 1) ≤ j →
        (⟨[1], 2⟩ : Sol).value ≤ ([⟨[0], 1⟩, ⟨[0], 3⟩] : List Sol)[j].value)) :=
  ⟨⟨by decide, by decide⟩,
    C4_insertion_position [⟨[0], 1⟩, ⟨[0], 3⟩] ⟨[1], 2⟩ (by decide) (by decide)⟩

/-- Specification of the find_maximum scan: either the running maximum wins and
every remaining element is bounded by it, or some element of the remaining
list strictly above the running maximum is returned, with its absolute index,
and it bounds the whole remaining list. -/
lemma fmAux_spec (l : List Sol) : ∀ (cur : Sol) (ci i : Nat),
    ((fmAux l cur ci i).2 = ci ∧ (fmAux l cur ci i).1 = cur ∧
      ∀ y ∈ l, y.value ≤ cur.value) ∨
    (∃ k, ∃ hk : k < l.length, (fmAux l cur ci i).2 = i + k ∧
      (fmAux l cur ci i).1 = l[k] ∧ cur.value < l[k].value ∧
      ∀ y ∈ l, y.value ≤ l[k].value) := by
  induction l with
  | nil =>
    intro cur ci i
    left
    exact ⟨rfl, rfl, by simp⟩
  | cons e es ih =>
    intro cur ci i
    by_cases hlt : cur.value < e.value
    · have hfm : fmAux (e :: es) cur ci i = fmAux es e i (i + 1) := by
        simp [fmAux, hlt]
      rcases ih e i (i + 1) with ⟨h2, h1, hall⟩ | ⟨k, hk, h2, h1, hcur, hall⟩
      · right
        refine ⟨0, by simp, ?_, ?_, ?_, ?_⟩
        · rw [hfm, h2]
          omega
        · rw [hfm, h1]
          simp
        · simpa using hlt
        · intro y hy
          rcases List.mem_cons.mp hy with rfl | hy2
          · simp
          · simpa using hall y hy2
      · right
        refine ⟨k + 1, by simpa using Nat.succ_lt_succ hk, ?_, ?_, ?_, ?_⟩
        · rw [hfm, h2]
          omega
        · rw [hfm, h1]
          simp
        · simpa using lt_trans hlt hcur
        · intro y hy
          rcases List.mem_cons.mp hy with rfl | hy2
          · simpa using le_of_lt hcur
          · simpa using hall y hy2
    · have hfm : fmAux (e :: es) cur ci i = fmAux es cur ci (i + 1) := by
        simp [fmAux, hlt]
      rcases ih cur ci (i + 1) with ⟨h2, h1, hall⟩ | ⟨k, hk, h2, h1, hcur, hall⟩
      · left
        refine ⟨by rw [hfm, h2], by rw [hfm, h1], ?_⟩
        intro y hy
        rcases List.mem_cons.mp hy with rfl | hy2
        · exact not_lt.mp hlt
        · exact hall y hy2
      · right
        refine ⟨k + 1, by simpa using Nat.succ_lt_succ hk, ?_, ?_, ?_, ?_⟩
        · rw [hfm, h2]
          omega
        · rw [hfm, h1]
          simp
        · simpa using hcur
        · intro y hy
          rcases List.mem_cons.mp hy with rfl | hy2
          · simpa using le_trans (not_lt.mp hlt) (le_of_lt hcur)
          · simpa using hall y hy2

/-- find_maximum on a nonempty archive returns a maximum element together with
its index. -/
lemma find_maximum_spec (iset : List Sol) (hne : iset ≠ []) :
    ∃ w wi, ∃ hwi : wi < iset.length, find_maximum iset = some (w, wi) ∧
      iset[wi] = w ∧ ∀ y ∈ iset, y.value ≤ w.value := by
  cases iset with
  | nil => exact absurd rfl hne
  | cons y ys =>
    have hfm : find_maximum (y :: ys) = some (fmAux ys y 0 1) := rfl
    rcases fmAux_spec ys y 0 1 with ⟨h2, h1, hall⟩ | ⟨k, hk, h2, h1, hcur, hall⟩
    · refine ⟨y, 0, by simp, ?_, by simp, ?_⟩
      · rw [hfm]
        congr 1
        exact Prod.ext h1 h2
      · intro z hz
        rcases List.mem_cons.mp hz with rfl | hz2
        · exact le_refl _
        · exact hall z hz2
    · refine ⟨ys[k], k + 1, by simpa using Nat.succ_lt_succ hk, ?_, by simp, ?_⟩
      · rw [hfm]
        congr 1
        refine Prod.ext h1 ?_
        rw [h2]
        omega
      · intro z hz
        rcases List.mem_cons.mp hz with rfl | hz2
        · exact le_of_lt hcur
        · exact hall z hz2

/-- Claim C8 (confirmed): for the WR strategy on a nonempty negative archive,
the maximum-value element is replaced by the new solution exactly when that
maximum strictly exceeds the value of the new solution; otherwise the archive
is unchanged and the new solution itself is returned as the replaced element.
In both cases no element of the resulting archive exceeds the old maximum, so
a negative-WR insertion never increases the maximum value of the archive. -/
theorem C8_negative_wr (iset : List Sol) (x : Sol) (hne : iset ≠ []) :
    ∃ w wi, ∃ hwi : wi < iset.length, find_maximum iset = some (w, wi) ∧
      iset[wi] = w ∧ (∀ y ∈ iset, y.value ≤ w.value) ∧
      (x.value < w.value → strategy_wr iset x .neg = some (w, iset.set wi x)) ∧
      (w.value ≤ x.value → strategy_wr iset x .neg = some (x, iset)) ∧
      (∀ ev l2, strategy_wr iset x .neg = some (ev, l2) →
        ∀ y ∈ l2, y.value ≤ w.value) := by
  obtain ⟨w, wi, hwi, hfm, hel, hall⟩ := find_maximum_spec iset hne
  refine ⟨w, wi, hwi, hfm, hel, hall, ?_, ?_, ?_⟩
  · intro hlt
    simp [strategy_wr, hfm, hlt]
  · intro hge
    simp [strategy_wr, hfm, not_lt.mpr hge]
  · intro ev l2 hsw y hy
    by_cases hlt : x.value < w.value
    · rw [show strategy_wr iset x .neg = some (w, iset.set wi x) from by
        simp [strategy_wr, hfm, hlt]] at hsw
      have hl2 : l2 = iset.set wi x := (Prod.mk.injEq .. ▸ Option.some.inj hsw).2.symm
      subst hl2
      rcases List.mem_or_eq_of_mem_set hy with hy2 | rfl
      · exact hall y hy2
      · exact le_of_lt hlt
    · rw [show strategy_wr iset x .neg = some (x, iset) from by
        simp [strategy_wr, hfm, not_lt.mp hlt, not_lt.mpr (not_lt.mp hlt)]] at hsw
      have hl2 : l2 = iset := (Prod.mk.injEq .. ▸ Option.some.inj hsw).2.symm
      subst hl2
      exact hall y hy

/-- Claim C8 witness: a singleton negative archive and a better new solution. -/
theorem C8_negative_wr_witness :
    (([⟨[0], 3⟩] : List Sol) ≠ []) ∧
    (∃ w wi, ∃ hwi : wi < ([⟨[0], 3⟩] : List Sol).length,
      find_maximum [⟨[0], 3⟩] = some (w, wi) ∧
      ([⟨[0], 3⟩] : List Sol)[wi] = w ∧
      (∀ y ∈ ([⟨[0], 3⟩] : List Sol), y.value ≤ w.value) ∧
      ((⟨[1], 1⟩ : Sol).value < w.value →
        strategy_wr [⟨[0], 3⟩] ⟨[1], 1⟩ .neg = some (w, ([⟨[0], 3⟩] : List Sol).set wi ⟨[1], 1⟩)) ∧
      (w.value ≤ (⟨[1], 1⟩ : Sol).value →
        strategy_wr [⟨[0], 3⟩] ⟨[1], 1⟩ .neg = some (⟨[1], 1⟩, [⟨[0], 3⟩])) ∧
      (∀ ev l2, strategy_wr [⟨[0], 3⟩] ⟨[1], 1⟩ .neg = some (ev, l2) →
        ∀ y ∈ l2, y.value ≤ w.value)) :=
  ⟨by decide, C8_negative_wr [⟨[0], 3⟩] ⟨[1], 1⟩ (by decide)⟩

/-- The min scan returns an element of the scanned list or the seed, bounded
by the seed value and by every scanned value. -/
lemma mnAux_spec (l : List Sol) : ∀ cur : Sol,
    (mnAux l cur = cur ∨ mnAux l cur ∈ l) ∧ (mnAux l cur).value ≤ cur.value ∧
    ∀ y ∈ l, (mnAux l cur).value ≤ y.value := by
  induction l with
  | nil =>
    intro cur
    exact ⟨Or.inl rfl, le_refl _, by simp⟩
  | cons e es ih =>
    intro cur
    by_cases hlt : e.value < cur.value
    · have h : mnAux (e :: es) cur = mnAux es e := by simp [mnAux, hlt]
      obtain ⟨hmem, hle, hall⟩ := ih e
      rw [h]
      refine ⟨?_, le_trans hle (le_of_lt hlt), ?_⟩
      · rcases hmem with h2 | h2
        · right
          rw [h2]
          exact List.mem_cons_self e es
        · exact Or.inr (List.mem_cons_of_mem e h2)
      · intro y hy
        rcases List.mem_cons.mp hy with rfl | hy2
        · exact hle
        · exact hall y hy2
    · have h : mnAux (e :: es) cur = mnAux es cur := by simp [mnAux, hlt]
      obtain ⟨hmem, hle, hall⟩ := ih cur
      rw [h]
      refine ⟨?_, hle, ?_⟩
      · rcases hmem with h2 | h2
        · exact Or.inl h2
        · exact Or.inr (List.mem_cons_of_mem e h2)
      · intro y hy
        rcases List.mem_cons.mp hy with rfl | hy2
        · exact le_trans hle (not_lt.mp hlt)
        · exact hall y hy2

/-- minByValue of a nonempty archive is a least-value member. -/
lemma minByValue_spec (iset : List Sol) (hne : iset ≠ []) :
    ∃ m, minByValue iset = some m ∧ m ∈ iset ∧ ∀ y ∈ iset, m.value ≤ y.value := by
  cases iset with
  | nil => exact absurd rfl hne
  | cons y ys =>
    obtain ⟨hmem, hle, hall⟩ := mnAux_spec ys y
    refine ⟨mnAux ys y, rfl, ?_, ?_⟩
    · rcases hmem with h | h
      · rw [h]
        exact List.mem_cons_self y ys
      · exact List.mem_cons_of_mem y h
    · intro z hz
      rcases List.mem_cons.mp hz with rfl | hz2
      · exact hle
      · exact hall z hz2

/-- Squared distances are nonnegative. -/
lemma distSq_nonneg (x y : List ℚ) : 0 ≤ distSq x y := by
  unfold distSq
  apply List.sum_nonneg
  intro q hq
  obtain ⟨p, hp, rfl⟩ := List.mem_map.mp hq
  positivity

/-- Specification of the strategy_lm scan: with a nonnegative running farthest
distance, either the running index is kept and every remaining distance is
bounded by the running distance, or the first remaining element strictly
beyond the running distance that dominates the rest is selected, with its
absolute index; earlier remaining elements are strictly closer. -/
lemma lmScan_spec (ref : Sol) (l : List Sol) : ∀ (i : Nat) (fd : ℚ) (fi : Nat),
    0 ≤ fd →
    (lmScan ref l i fd fi = fi ∧
      ∀ k, (hk : k < l.length) → distSq l[k].x ref.x ≤ fd) ∨
    (∃ k, ∃ hk : k < l.length, lmScan ref l i fd fi = i + k ∧
      fd < distSq l[k].x ref.x ∧
      (∀ m, (hm : m < l.length) → distSq l[m].x ref.x ≤ distSq l[k].x ref.x) ∧
      (∀ m, (hm : m < l.length) → m < k →
        distSq l[m].x ref.x < distSq l[k].x ref.x)) := by
  induction l with
  | nil =>
    intro i fd fi hfd
    left
    refine ⟨rfl, ?_⟩
    intro k hk
    simp at hk
  | cons e es ih =>
    intro i fd fi hfd
    by_cases hlt : fd < distSq e.x ref.x
    · have h : lmScan ref (e :: es) i fd fi =
          lmScan ref es (i + 1) (distSq e.x ref.x) i := by
        simp [lmScan, hlt]
      rcases ih (i + 1) (distSq e.x ref.x) i (le_trans hfd (le_of_lt hlt)) with
        ⟨hres, hall⟩ | ⟨k, hk, hres, hgt, hall, hstrict⟩
      · right
        refine ⟨0, by simp, ?_, ?_, ?_, ?_⟩
        · rw [h, hres]
          omega
        · simpa using hlt
        · intro m hm
          cases m with
          | zero => simp
          | succ m =>
            have hm2 : m < es.length := by simpa using hm
            simpa using hall m hm2
        · intro m hm hm0
          omega
      · right
        refine ⟨k + 1, by simpa using Nat.succ_lt_succ hk, ?_, ?_, ?_, ?_⟩
        · rw [h, hres]
          omega
        · simpa using lt_trans hlt hgt
        · intro m hm
          cases m with
          | zero => simpa using le_of_lt hgt
          | succ m =>
            have hm2 : m < es.length := by simpa using hm
            simpa using hall m hm2
        · intro m hm hmk
          cases m with
          | zero => simpa using hgt
          | succ m =>
            have hm2 : m < es.length := by simpa using hm
            simpa using hstrict m hm2 (by omega)
    · have h : lmScan ref (e :: es) i fd fi = lmScan ref es (i + 1) fd fi := by
        simp [lmScan, hlt]
      rcases ih (i + 1) fd fi hfd with ⟨hres, hall⟩ | ⟨k, hk, hres, hgt, hall, hstrict⟩
      · left
        refine ⟨by rw [h, hres], ?_⟩
        intro k hk
        cases k with
        | zero => simpa using not_lt.mp hlt
        | succ k =>
          have hk2 : k < es.length := by simpa using hk
          simpa using hall k hk2
      · right
        refine ⟨k + 1, by simpa using Nat.succ_lt_succ hk, ?_, ?_, ?_, ?_⟩
        · rw [h, hres]
          omega
        · simpa using hgt
        · intro m hm
          cases m with
          | zero => simpa using le_of_lt (lt_of_le_of_lt (not_lt.mp hlt) hgt)
          | succ m =>
            have hm2 : m < es.length := by simpa using hm
            simpa using hall m hm2
        · intro m hm hmk
          cases m with
          | zero => simpa using lt_of_le_of_lt (not_lt.mp hlt) hgt
          | succ m =>
            have hm2 : m < es.length := by simpa using hm
            simpa using hstrict m hm2 (by omega)

/-- Claim C6 counterexample: one LM iteration of the run. The current best
solution has coordinates [0] (the positive archive is [⟨[0], 1⟩] before and
after the step, so the best is ⟨[0], 1⟩). In the negative archive
[⟨[10], 0⟩, ⟨[4], 5⟩] the member farthest from the best is the one at
coordinates [10] (squared distance 100 against 16), yet the code replaces the
member at coordinates [4], because SRacos.replace takes as reference the
minimum-value element of the negative archive itself (⟨[10], 0⟩), not the
current best solution. -/
theorem C6_counterexample :
    opt_update [⟨[0], 1⟩] [⟨[10], 0⟩, ⟨[4], 5⟩] ⟨[1], 2⟩ .LM 0 =
      some ([⟨[0], 1⟩], [⟨[10], 0⟩, ⟨[1], 2⟩], ⟨[0], 1⟩) ∧
    distSq [4] [0] < distSq [10] [0] := by
  constructor
  · have hbs : binary_search [⟨[0], 1⟩] ⟨[1], 2⟩ 0 0 = 1 := by
      rw [binary_search]
      norm_num [List.getD]
    norm_num [opt_update, replace, strategy_wr, strategy_lm, hbs, pyInsert,
      minByValue, mnAux, lmScan, distSq, List.getD]
  · norm_num [distSq]

/-- Claim C6 (corrected): under the LM strategy the reference point is the
first minimum-value element of the very archive being updated — for the
negative archive this is in general not the current best solution — and the
element replaced is the archive member whose Euclidean distance (equivalently
squared distance) to that reference is largest, with ties broken toward the
first occurrence in scan order. -/
theorem C6_lm_reference (iset : List Sol) (x : Sol) (rnd : Nat) (hne : iset ≠ []) :
    ∃ ref j, ∃ hj : j < iset.length,
      minByValue iset = some ref ∧ ref ∈ iset ∧
      (∀ y ∈ iset, ref.value ≤ y.value) ∧
      replace iset x .neg .LM rnd = some (iset[j], iset.set j x) ∧
      (∀ m, (hm : m < iset.length) →
        distSq iset[m].x ref.x ≤ distSq iset[j].x ref.x) ∧
      (∀ m, (hm : m < iset.length) → m < j →
        distSq iset[m].x ref.x < distSq iset[j].x ref.x) := by
  obtain ⟨ref, hmin, hmem, hall⟩ := minByValue_spec iset hne
  have hempty : iset.isEmpty = false := by
    cases iset with
    | nil => exact absurd rfl hne
    | cons y ys => rfl
  have hlen : 0 < iset.length := List.length_pos.mpr hne
  rcases lmScan_spec ref iset 0 0 0 (le_refl 0) with
    ⟨hres, hbnd⟩ | ⟨k, hk, hres, hgt, hbnd, hstrict⟩
  · refine ⟨ref, 0, hlen, hmin, hmem, hall, ?_, ?_, ?_⟩
    · simp [replace, hmin, strategy_lm, hempty, hres]
      simp [List.getElem?_eq_getElem hlen]
    · intro m hm
      exact le_trans (hbnd m hm) (distSq_nonneg _ _)
    · intro m hm h
      omega
  · refine ⟨ref, k, hk, hmin, hmem, hall, ?_, hbnd, hstrict⟩
    have hres2 : lmScan ref iset 0 0 0 = k := by
      rw [hres]
      omega
    simp [replace, hmin, strategy_lm, hempty, hres2]
    simp [List.getElem?_eq_getElem hk]

/-- Claim C6 witness: the corrected LM description at a concrete negative
archive. -/
theorem C6_lm_reference_witness :
    (([⟨[0], 3⟩, ⟨[1], 1⟩] : List Sol) ≠ []) ∧
    (∃ ref j, ∃ hj : j < ([⟨[0], 3⟩, ⟨[1], 1⟩] : List Sol).length,
      minByValue [⟨[0], 3⟩, ⟨[1], 1⟩] = some ref ∧
      ref ∈ ([⟨[0], 3⟩, ⟨[1], 1⟩] : List Sol) ∧
      (∀ y ∈ ([⟨[0], 3⟩, ⟨[1], 1⟩] : List Sol), ref.value ≤ y.value) ∧
      replace [⟨[0], 3⟩, ⟨[1], 1⟩] ⟨[2], 2⟩ .neg .LM 0 =
        some (([⟨[0], 3⟩, ⟨[1], 1⟩] : List Sol)[j],
          ([⟨[0], 3⟩, ⟨[1], 1⟩] : List Sol).set j ⟨[2], 2⟩) ∧
      (∀ m, (hm : m < ([⟨[0], 3⟩, ⟨[1], 1⟩] : List Sol).length) →
        distSq ([⟨[0], 3⟩, ⟨[1], 1⟩] : List Sol)[m].x ref.x ≤
          distSq ([⟨[0], 3⟩, ⟨[1], 1⟩] : List Sol)[j].x ref.x) ∧
      (∀ m, (hm : m < ([⟨[0], 3⟩, ⟨[1], 1⟩] : List Sol).length) → m < j →
        distSq ([⟨[0], 3⟩, ⟨[1], 1⟩] : List Sol)[m].x ref.x <
          distSq ([⟨[0], 3⟩, ⟨[1], 1⟩] : List Sol)[j].x ref.x)) :=
  ⟨by decide, C6_lm_reference [⟨[0], 3⟩, ⟨[1], 1⟩] ⟨[2], 2⟩ 0 (by decide)⟩

/-- replace never succeeds on an empty archive, whatever the strategy. -/
lemma replace_some_ne_nil {iset : List Sol} {x : Sol} {t : IsetType} {s : Strategy}
    {rnd : Nat} {p : Sol × List Sol} (h : replace iset x t s rnd = some p) :
    iset ≠ [] := by
  intro heq
  subst heq
  cases s <;> cases t <;>
    simp [replace, strategy_wr, strategy_rr, strategy_lm, minByValue,
      find_maximum] at h

/-- Claim C7 counterexample: one iteration with configured strategy LM. The
positive archive is updated by WR — the new solution of value 5, worse than
the whole archive, is discarded and the archive stays [⟨[0], 0⟩, ⟨[9], 3⟩] —
whereas a positive-archive LM replacement with the same inputs would
overwrite the farthest element and produce [⟨[0], 0⟩, ⟨[1], 5⟩]. The claim
that the configured strategy is applied to the positive archive update is
therefore false. -/
theorem C7_counterexample :
    opt_update [⟨[0], 0⟩, ⟨[9], 3⟩] [⟨[5], 10⟩] ⟨[1], 5⟩ .LM 0 =
      some ([⟨[0], 0⟩, ⟨[9], 3⟩], [⟨[1], 5⟩], ⟨[0], 0⟩) ∧
    replace [⟨[0], 0⟩, ⟨[9], 3⟩] ⟨[1], 5⟩ .pos .LM 0 =
      some (⟨[9], 3⟩, [⟨[0], 0⟩, ⟨[1], 5⟩]) ∧
    ([⟨[0], 0⟩, ⟨[9], 3⟩] : List Sol) ≠ [⟨[0], 0⟩, ⟨[1], 5⟩] := by
  refine ⟨?_, ?_, by decide⟩
  · have hbs : binary_search [⟨[0], 0⟩, ⟨[9], 3⟩] ⟨[1], 5⟩ 0 1 = 2 := by
      rw [binary_search]
      norm_num [List.getD]
    norm_num [opt_update, replace, strategy_wr, strategy_lm, hbs, pyInsert,
      minByValue, mnAux, lmScan, distSq, List.getD]
  · norm_num [replace, strategy_lm, minByValue, mnAux, lmScan, distSq, List.getD]

/-- Claim C7 (corrected): within one iteration the configured strategy governs
only the negative archive update; the positive archive update and the
best-solution computation are those of WR for every configured strategy, so
any successful iteration yields the same positive archive and best solution
as the WR-configured iteration on the same inputs. -/
theorem C7_strategy_scope (pos neg : List Sol) (sol : Sol) (strategy : Strategy)
    (rnd : Nat) (pos2 neg2 : List Sol) (b : Sol)
    (h : opt_update pos neg sol strategy rnd = some (pos2, neg2, b)) :
    ∃ neg3, opt_update pos neg sol .WR rnd = some (pos2, neg3, b) := by
  rcases h1 : replace pos sol .pos .WR rnd with _ | ⟨bad, posx⟩
  · simp [opt_update, h1] at h
  rcases h2 : replace neg bad .neg strategy rnd with _ | ⟨ev2, negx⟩
  · simp [opt_update, h1, h2] at h
  rcases h3 : posx.head? with _ | hb
  · simp [opt_update, h1, h2, h3] at h
  have hval : pos2 = posx ∧ neg2 = negx ∧ b = hb := by
    simp [opt_update, h1, h2, h3] at h
    exact ⟨h.1.symm, h.2.1.symm, h.2.2.symm⟩
  obtain ⟨rfl, rfl, rfl⟩ := hval
  have hneg : neg ≠ [] := replace_some_ne_nil h2
  obtain ⟨ev3, neg3, hsw⟩ := strategy_wr_neg_some neg bad hneg
  have h2w : replace neg bad .neg .WR rnd = some (ev3, neg3) := by
    simpa [replace] using hsw
  exact ⟨neg3, by simp [opt_update, h1, h2w, h3]⟩

/-- Claim C7 witness: the LM-configured iteration of the counterexample also
yields a WR iteration with identical positive archive and best solution. -/
theorem C7_strategy_scope_witness :
    (opt_update [⟨[0], 0⟩, ⟨[9], 3⟩] [⟨[5], 10⟩] ⟨[1], 5⟩ .LM 0 =
      some ([⟨[0], 0⟩, ⟨[9], 3⟩], [⟨[1], 5⟩], ⟨[0], 0⟩)) ∧
    ∃ neg3, opt_update [⟨[0], 0⟩, ⟨[9], 3⟩] [⟨[5], 10⟩] ⟨[1], 5⟩ .WR 0 =
      some ([⟨[0], 0⟩, ⟨[9], 3⟩], neg3, ⟨[0], 0⟩) := by
  have h : opt_update [⟨[0], 0⟩, ⟨[9], 3⟩] [⟨[5], 10⟩] ⟨[1], 5⟩ .LM 0 =
      some ([⟨[0], 0⟩, ⟨[9], 3⟩], [⟨[1], 5⟩], ⟨[0], 0⟩) := by
    have hbs : binary_search [⟨[0], 0⟩, ⟨[9], 3⟩] ⟨[1], 5⟩ 0 1 = 2 := by
      rw [binary_search]
      norm_num [List.getD]
    norm_num [opt_update, replace, strategy_wr, strategy_lm, hbs, pyInsert,
      minByValue, mnAux, lmScan, distSq, List.getD]
  exact ⟨h, C7_strategy_scope _ _ _ _ _ _ _ _ h⟩

/-- Claim C1 counterexample: an asynchronous run with server_num = 2 and
train_size = 4. Three suggest calls before any complete call each return a
Solution, and after the third call three trials are outstanding — the claimed
admission bound of server_num = 2 does not hold during initialization,
because the live_num < server_num guard of SRacosTune.suggest applies only
after the initialization phase. -/
theorem C1_gate_counterexample :
    ((suggest ((suggest ((suggest (tuneInit 4 2) (⟨[1], 0⟩, true)).1)
      (⟨[2], 0⟩, true)).1) (⟨[3], 0⟩, true)).2 = .sol ⟨[3], 0⟩) ∧
    ((suggest ((suggest ((suggest (tuneInit 4 2) (⟨[1], 0⟩, true)).1)
      (⟨[2], 0⟩, true)).1) (⟨[3], 0⟩, true)).1.liveNum = 3) ∧
    ((suggest ((suggest ((suggest (tuneInit 4 2) (⟨[1], 0⟩, true)).1)
      (⟨[2], 0⟩, true)).1) (⟨[3], 0⟩, true)).1.serverNum = 2) := by
  decide

/-- Claim C1 (corrected): the server_num admission bound governs only
post-initialization suggestions. Once init_num has reached train_size, any
suggest call finding live_num at or above server_num returns no Solution and
leaves live_num unchanged; during initialization, up to train_size trials may
be outstanding regardless of server_num, as the counterexample shows. -/
theorem C1_post_init_bound (st : TuneState) (o : Sol × Bool)
    (hpost : st.trainSize ≤ st.initNum) (hlive : (st.serverNum : Int) ≤ st.liveNum) :
    (∀ s, (suggest st o).2 ≠ .sol s) ∧ (suggest st o).1.liveNum = st.liveNum := by
  unfold suggest
  by_cases hsem0 : st.semaphore = 0
  · rw [if_pos hsem0]
    exact ⟨fun s => by simp, rfl⟩
  · by_cases heq : st.initNum = st.trainSize
    · rw [if_neg hsem0, if_neg (by omega), if_pos heq]
      exact ⟨fun s => by simp, rfl⟩
    · rw [if_neg hsem0, if_neg (by omega), if_neg heq, if_neg (not_lt.mpr hlive)]
      exact ⟨fun s => by simp, rfl⟩

/-- Claim C1 witness: a saturated post-initialization state. -/
theorem C1_post_init_bound_witness :
    (((4 : Nat) ≤ 6) ∧ (((2 : Nat) : Int) ≤ 2)) ∧
    ((∀ s, (suggest { trainSize := 4, serverNum := 2, initNum := 6, completeNum := 4, semaphore := 1, liveNum := 2, data := [], positive := [], negative := [], best := none } (⟨[7], 0⟩, true)).2 ≠ .sol s) ∧
      (suggest { trainSize := 4, serverNum := 2, initNum := 6, completeNum := 4, semaphore := 1, liveNum := 2, data := [], positive := [], negative := [], best := none } (⟨[7], 0⟩, true)).1.liveNum = 2) :=
  ⟨⟨by decide, by decide⟩,
    C1_post_init_bound { trainSize := 4, serverNum := 2, initNum := 6, completeNum := 4, semaphore := 1, liveNum := 2, data := [], positive := [], negative := [], best := none } (⟨[7], 0⟩, true) (by decide) (by decide)⟩

/-- Claim C10 (confirmed): a post-initialization suggest call made while the
gate is open (semaphore = 1) and live_num is at least server_num returns None
— not the FINISHED marker — and changes nothing except init_num, which it
still increments; since this holds for every init_num above train_size,
init_num keeps growing past train_size on such calls and does not count the
initialization samples actually issued. -/
theorem C10_suggest_frame (st : TuneState) (o : Sol × Bool)
    (hsem : st.semaphore = 1) (hpost : st.trainSize < st.initNum)
    (hlive : (st.serverNum : Int) ≤ st.liveNum) :
    suggest st o = ({ st with initNum := st.initNum + 1 }, .nothing) := by
  unfold suggest
  rw [if_neg (by omega), if_neg (by omega), if_neg (by omega),
    if_neg (not_lt.mpr hlive)]

/-- Claim C10 witness: a concrete saturated post-initialization state. -/
theorem C10_suggest_frame_witness :
    (({ trainSize := 4, serverNum := 2, initNum := 5, completeNum := 3, semaphore := 1, liveNum := 2, data := [], positive := [], negative := [], best := none } : TuneState).semaphore = 1 ∧ (4 : Nat) < 5 ∧ (((2 : Nat) : Int) ≤ 2)) ∧
    suggest { trainSize := 4, serverNum := 2, initNum := 5, completeNum := 3, semaphore := 1, liveNum := 2, data := [], positive := [], negative := [], best := none } (⟨[7], 0⟩, true) =
      ({ ({ trainSize := 4, serverNum := 2, initNum := 5, completeNum := 3, semaphore := 1, liveNum := 2, data := [], positive := [], negative := [], best := none } : TuneState) with initNum := ({ trainSize := 4, serverNum := 2, initNum := 5, completeNum := 3, semaphore := 1, liveNum := 2, data := [], positive := [], negative := [], best := none } : TuneState).initNum + 1 }, .nothing) :=
  ⟨⟨by decide, by decide, by decide⟩,
    C10_suggest_frame { trainSize := 4, serverNum := 2, initNum := 5, completeNum := 3, semaphore := 1, liveNum := 2, data := [], positive := [], negative := [], best := none } (⟨[7], 0⟩, true) (by decide) (by decide) (by decide)⟩

/-- Claim C5 (code_bug): an asynchronous run with train_size = 2 and two
initialization trials outstanding. The NaN completion is discarded — the
staging set and both archives stay empty — while complete_num is advanced to
1 and live_num drops to 1, exactly as the claim describes; but complete_num
is also the count compared against train_size to decide when the archives are
formed for classification, so the following valid completion reaches
complete_num = train_size and invokes update_classifier on the never-formed
(empty) positive archive: the embedded call returns none, modelling the
IndexError the source raises inside binary_search. The separate
completed-for-classification count that the claim says is left unchanged does
not exist in the code. -/
theorem C5_nan_completion_bug :
    (complete ((suggest ((suggest (tuneInit 2 2) (⟨[1], 0⟩, true)).1)
        (⟨[2], 0⟩, true)).1) ⟨[1], 0⟩ FloatVal.nan 0 =
      some ({ tuneInit 2 2 with initNum := 2, completeNum := 1, liveNum := 1 },
        none)) ∧
    complete { tuneInit 2 2 with initNum := 2, completeNum := 1, liveNum := 1 }
      ⟨[2], 0⟩ (FloatVal.fin 1) 0 = none := by
  decide

/-- A non-distinct draw below the overflow bound only increments the counter. -/
lemma opt_loop_nd_step (iterNum : Nat) (strategy : Strategy) (terminal : Option ℚ)
    (crit : List Sol → List Sol → Bool) (rest : List OptEvent) (i cnd : Nat)
    (pos neg : List Sol) (hi : i < iterNum) (hc : cnd + 1 < 100) :
    opt_loop iterNum strategy terminal crit (.notDistinct :: rest) i cnd pos neg =
    opt_loop iterNum strategy terminal crit rest i (cnd + 1) pos neg := by
  simp only [opt_loop]
  rw [if_neg (not_le.mpr hi), if_neg (show ¬ (100 ≤ cnd + 1) by omega)]

/-- A distinct draw that triggers no terminal or criterion stop performs one
archive update and advances the iteration counter. -/
lemma opt_loop_distinct_step (iterNum : Nat) (strategy : Strategy)
    (terminal : Option ℚ) (crit : List Sol → List Sol → Bool) (sol : Sol)
    (rnd : Nat) (rest : List OptEvent) (i cnd : Nat)
    (pos neg pos2 neg2 : List Sol) (best : Sol) (hi : i < iterNum)
    (hou : opt_update pos neg sol strategy rnd = some (pos2, neg2, best))
    (hterm : terminalHit terminal best = false) (hcrit : crit pos2 neg2 = false) :
    opt_loop iterNum strategy terminal crit (.distinct sol rnd :: rest) i cnd pos neg =
    opt_loop iterNum strategy terminal crit rest (i + 1) cnd pos2 neg2 := by
  simp only [opt_loop, hou, hterm, hcrit]
  rw [if_neg (not_le.mpr hi)]
  simp

/-- A run of k non-distinct draws below the overflow bound adds k to the
counter and consumes the run. -/
lemma opt_loop_nd_run (iterNum : Nat) (strategy : Strategy) (terminal : Option ℚ)
    (crit : List Sol → List Sol → Bool) (k : Nat) :
    ∀ (rest : List OptEvent) (i cnd : Nat) (pos neg : List Sol),
      i < iterNum → cnd + k < 100 →
      opt_loop iterNum strategy terminal crit
        (List.replicate k .notDistinct ++ rest) i cnd pos neg =
      opt_loop iterNum strategy terminal crit rest i (cnd + k) pos neg := by
  induction k with
  | zero =>
    intro rest i cnd pos neg hi hc
    simp
  | succ k ih =>
    intro rest i cnd pos neg hi hc
    rw [List.replicate_succ, List.cons_append]
    rw [opt_loop_nd_step iterNum strategy terminal crit _ i cnd pos neg hi (by omega)]
    rw [ih rest i (cnd + 1) pos neg hi (by omega)]
    have h : cnd + 1 + k = cnd + (k + 1) := by omega
    rw [h]

/-- Counting one more non-distinct event. -/
lemma ndCount_cons_nd (rest : List OptEvent) :
    ndCount (.notDistinct :: rest) = ndCount rest + 1 := by
  simp [ndCount, List.countP_cons]

/-- Events other than notDistinct do not change the count. -/
lemma ndCount_cons_other (e : OptEvent) (rest : List OptEvent)
    (h : e ≠ .notDistinct) : ndCount (e :: rest) = ndCount rest := by
  simp [ndCount, List.countP_cons, h]

/-- Claim C2 counterexample: a trace of 99 non-distinct draws, then a distinct
draw, then one more non-distinct draw. The longest run of consecutive
non-distinct draws is 99 — the distinct sample in between would reset a
consecutive counter — yet the loop terminates with the non-distinct overflow
reason, because current_not_distinct_times is never reset and the 100th
cumulative non-distinct draw trips the bound. -/
theorem C2_counterexample :
    opt_loop 10 .WR none (fun _ _ => false)
      (List.replicate 99 OptEvent.notDistinct ++
        (OptEvent.distinct ⟨[1], 1⟩ 0 :: [OptEvent.notDistinct])) 0 0
      [⟨[0], 0⟩] [⟨[2], 5⟩] =
      some (.notDistinctOverflow, [⟨[0], 0⟩], [⟨[1], 1⟩]) ∧
    maxConsecND (List.replicate 99 OptEvent.notDistinct ++
      (OptEvent.distinct ⟨[1], 1⟩ 0 :: [OptEvent.notDistinct])) = 99 := by
  constructor
  · rw [opt_loop_nd_run 10 .WR none (fun _ _ => false) 99
      (OptEvent.distinct ⟨[1], 1⟩ 0 :: [OptEvent.notDistinct]) 0 0
      [⟨[0], 0⟩] [⟨[2], 5⟩] (by omega) (by omega)]
    have hou : opt_update [⟨[0], 0⟩] [⟨[2], 5⟩] ⟨[1], 1⟩ .WR 0 =
        some ([⟨[0], 0⟩], [⟨[1], 1⟩], ⟨[0], 0⟩) := by
      have hbs : binary_search [⟨[0], 0⟩] ⟨[1], 1⟩ 0 0 = 1 := by
        rw [binary_search]
        norm_num [List.getD]
      have hswp : strategy_wr [⟨[0], 0⟩] ⟨[1], 1⟩ .pos =
          some (⟨[1], 1⟩, [⟨[0], 0⟩]) := by
        norm_num [strategy_wr, hbs, pyInsert, List.getD]
      have hswn : strategy_wr [⟨[2], 5⟩] ⟨[1], 1⟩ .neg =
          some (⟨[2], 5⟩, [⟨[1], 1⟩]) := by decide
      norm_num [opt_update, replace, hswp, hswn]
    rw [opt_loop_distinct_step 10 .WR none (fun _ _ => false) ⟨[1], 1⟩ 0
      [OptEvent.notDistinct] 0 (0 + 99) [⟨[0], 0⟩] [⟨[2], 5⟩] [⟨[0], 0⟩]
      [⟨[1], 1⟩] ⟨[0], 0⟩ (by omega) hou rfl rfl]
    decide
  · decide

/-- Claim C2 (corrected): current_not_distinct_times is cumulative over the
whole run and is never reset by a distinct sample, so the loop terminates
through it exactly when the total number of non-distinct draws since run
start reaches 100; as long as the cumulative count of non-distinct draws
stays below 100, however the draws are interleaved, the run never ends with
the non-distinct overflow reason. -/
theorem C2_cumulative_counter (iterNum : Nat) (strategy : Strategy)
    (terminal : Option ℚ) (crit : List Sol → List Sol → Bool)
    (res : StopReason × List Sol × List Sol) (trace : List OptEvent) :
    ∀ (i cnd : Nat) (pos neg : List Sol), cnd + ndCount trace < 100 →
      opt_loop iterNum strategy terminal crit trace i cnd pos neg = some res →
      res.1 ≠ .notDistinctOverflow := by
  induction trace with
  | nil =>
    intro i cnd pos neg hcnt h
    simp only [opt_loop] at h
    split at h
    · rw [← Option.some.inj h]
      simp
    · exact Option.noConfusion h
  | cons e rest ih =>
    intro i cnd pos neg hcnt h
    cases e with
    | panicStop =>
      simp only [opt_loop] at h
      split at h
      · rw [← Option.some.inj h]
        simp
      · rw [← Option.some.inj h]
        simp
    | notDistinct =>
      have hnd := ndCount_cons_nd rest
      simp only [opt_loop] at h
      split at h
      · rw [← Option.some.inj h]
        simp
      · split at h
        · exfalso
          omega
        · exact ih i (cnd + 1) pos neg (by omega) h
    | distinct sol rnd =>
      have hnd := ndCount_cons_other (.distinct sol rnd) rest (by simp)
      simp only [opt_loop] at h
      split at h
      · rw [← Option.some.inj h]
        simp
      · split at h
        · exact Option.noConfusion h
        · split at h
          · rw [← Option.some.inj h]
            simp
          · split at h
            · rw [← Option.some.inj h]
              simp
            · exact ih (i + 1) cnd _ _ (by omega) h

/-- Claim C2 witness: a run with no non-distinct draw at all that terminates
for another reason. -/
theorem C2_cumulative_counter_witness :
    (0 + ndCount [OptEvent.panicStop] < 100 ∧
      opt_loop 1 .WR none (fun _ _ => false) [OptEvent.panicStop] 0 0 [] [] =
        some (.solutionNone, [], [])) ∧
    (StopReason.solutionNone, ([] : List Sol), ([] : List Sol)).1 ≠
      .notDistinctOverflow :=
  ⟨⟨by decide, by decide⟩,
    C2_cumulative_counter 1 .WR none (fun _ _ => false) (.solutionNone, [], [])
      [OptEvent.panicStop] 0 0 [] [] (by decide) (by decide)⟩
